import Mathlib

/-!
Verification of the simply-put service (src/app.go) against its
natural-language specification.

The JSON documents exchanged with callers are Go `map[string]interface{}`
values.  Go maps are unordered; we model a Document as an
insertion-ordered association list, and every iteration over a map in the
source is modelled as iteration in list order.  Semantic (map) equality of
documents is implied by the literal list equalities proved below.
JSON numbers (and the int64 identifiers/timestamps) are modelled by a
single integer scalar constructor, since no claim depends on the numeric
representation.
-/

namespace SimplyPut

/-- A JSON-like dynamic value (`interface{}` after `encoding/json` decoding):
null, bool, number, string, array (`[]interface{}`) or nested object
(`map[string]interface{}`). -/
inductive Value where
  | vnull : Value
  | vbool : Bool → Value
  | vint : Int → Value
  | vstr : String → Value
  | varr : List Value → Value
  | vdoc : List (String × Value) → Value
deriving Inhabited

/-- A Document: Go `map[string]interface{}`, modelled as an insertion-ordered
association list. -/
abbrev Doc := List (String × Value)

/-- `m[k]` map lookup. -/
def lookupD (d : Doc) (k : String) : Option Value :=
  match d with
  | [] => none
  | (k', v) :: rest => if k' = k then some v else lookupD rest k

/-- `m[k] = v` map assignment: replaces the binding in place if present,
appends it otherwise (insertion order). -/
def setKey (d : Doc) (k : String) (v : Value) : Doc :=
  match d with
  | [] => [(k, v)]
  | (k', v') :: rest => if k' = k then (k, v) :: rest else (k', v') :: setKey rest k v

/-- Go `delete(m, k)`. -/
def removeKey (d : Doc) (k : String) : Doc :=
  match d with
  | [] => []
  | (k', v') :: rest => if k' = k then removeKey rest k else (k', v') :: removeKey rest k

/-- The keys of a document. -/
def keys (d : Doc) : List String := d.map Prod.fst

/-- `strings.Split` with a one-character separator, over the character list
of the string.  `splitChar c l` never returns `[]`. -/
def splitChar (c : Char) : List Char → List (List Char)
  | [] => [[]]
  | x :: xs =>
    if x = c then [] :: splitChar c xs
    else
      match splitChar c xs with
      | [] => [[x]]
      | y :: ys => (x :: y) :: ys

/-- `strings.Split(s, ".")` (the separator is the single character `.`). -/
def splitName (s : String) : List String :=
  (splitChar '.' s.data).map String.mk

/-- `datastore.Property`: name (dotted path), value, `Multiple` flag.
(The unexported `noIndex` field is irrelevant to this code.) -/
structure Property where
  name : String
  value : Value
  multiple : Bool
deriving Inhabited

/-- Reserved key `_id` (src/app.go `idKey`). -/
def idKey : String := "_id"
/-- Reserved key `_created` (src/app.go `createdKey`). -/
def createdKey : String := "_created"
/-- Reserved key `_updated` (src/app.go `updatedKey`). -/
def updatedKey : String := "_updated"

/-- src/app.go `mapToPlist`: flattens a document into a datastore property
list.  Nested documents recurse with the prefix extended by `key + "."`;
arrays emit one `Multiple` property per element; other values emit a single
property. -/
def mapToPlist (pre : String) : Doc → List Property
  | [] => []
  | (k, v) :: rest =>
    (match v with
     | .vdoc m => mapToPlist (pre ++ k ++ ".") m
     | .varr l => l.map (fun mv => ⟨pre ++ k, mv, true⟩)
     | sc => [⟨pre ++ k, sc, false⟩]) ++ mapToPlist pre rest
termination_by d => sizeOf d

/-- The leaf step of src/app.go `plistToMap`: store `v` at key `leaf` of the
current node — set if absent, promote an existing single value to a
2-element array, append if already an array.  (`p.Multiple` is only
inspected by a comment-bearing no-op branch in the source.) -/
def leafIns (d : Doc) (leaf : String) (v : Value) : Doc :=
  match lookupD d leaf with
  | some (.varr l) => setKey d leaf (.varr (l ++ [v]))
  | some old => setKey d leaf (.varr [old, v])
  | none => setKey d leaf v

/-- Processing of one property by src/app.go `plistToMap`: walk the path
segments before the leaf, descending into existing sub-documents, creating
empty ones when absent; when an intermediate segment holds a non-document
value the walk keeps `sub` unchanged and moves to the next segment (the
`// Got a sub-property of a non-map property. Uh oh...` branch). -/
def insertProp (d : Doc) : List String → Value → Doc
  | [], _ => d
  | [leaf], v => leafIns d leaf v
  | p :: q :: rest, v =>
    match lookupD d p with
    | some (.vdoc sub) => setKey d p (.vdoc (insertProp sub (q :: rest) v))
    | some _ => insertProp d (q :: rest) v
    | none => setKey d p (.vdoc (insertProp [] (q :: rest) v))

/-- src/app.go `plistToMap`: fold every property into an initially empty
document, then set `_id` to the supplied identifier. -/
def plistToMap (pl : List Property) (id : Int) : Doc :=
  setKey (pl.foldl (fun m p => insertProp m (splitName p.name) p.value) []) idKey (.vint id)

/-! ### The backend property store

`appengine/datastore` is an external collaborator of src/app.go; the
definitions below model its narrow Put/Get/Delete contract as documented in
§6 of the specification: `put(storageKind, optional id, properties) → id`
(a put with no id generates a fresh identifier; a put replaces the full
property set), `get(storageKind, id) → properties` failing when absent, and
`delete(storageKind, id)` failing when absent. -/

/-- The backend store: a finite map from (storageKind, id) to a property
list, plus the next fresh identifier the backend will assign.  Fresh
identifiers are modelled as a counter; `StoreWF` states the counter
dominates every allocated id. -/
structure Store where
  entries : List ((String × Int) × List Property)
  nextId : Int

/-- Lookup of an entity's property list (`datastore.Get`). -/
def Store.get (s : Store) (kind : String) (id : Int) : Option (List Property) :=
  (s.entries.find? (fun e => e.1 = (kind, id))).map Prod.snd

/-- Assign a (kind, id) entry, replacing the full property set if present. -/
def setEntry (es : List ((String × Int) × List Property)) (key : String × Int)
    (pl : List Property) : List ((String × Int) × List Property) :=
  match es with
  | [] => [(key, pl)]
  | (key', pl') :: rest =>
    if key' = key then (key, pl) :: rest else (key', pl') :: setEntry rest key pl

/-- `datastore.Put` with a complete key: writes the property list under the
given id, replacing the full property set; creates the entity if absent. -/
def Store.put (s : Store) (kind : String) (id : Int) (pl : List Property) : Store :=
  ⟨setEntry s.entries (kind, id) pl, s.nextId⟩

/-- `datastore.Put` with an incomplete key: the backend assigns a fresh
identifier and returns it. -/
def Store.putNew (s : Store) (kind : String) (pl : List Property) : Int × Store :=
  (s.nextId, ⟨setEntry s.entries (kind, s.nextId) pl, s.nextId + 1⟩)

/-- `datastore.Delete`: `none` models `datastore.ErrNoSuchEntity`. -/
def Store.del (s : Store) (kind : String) (id : Int) : Option Store :=
  if (s.get kind id).isSome then
    some ⟨s.entries.filter (fun e => e.1 ≠ (kind, id)), s.nextId⟩
  else none

/-- The entity at (kind, id) is present in the store. -/
def present (s : Store) (kind : String) (id : Int) : Bool :=
  (s.get kind id).isSome

/-- Store well-formedness: every allocated id is below the fresh-id counter
(so a backend-generated id is never an already-used one). -/
def StoreWF (s : Store) : Bool :=
  s.entries.all (fun e => e.1.2 < s.nextId)

/-! ### The CRUD operations of src/app.go

The request body is an `io.Reader` holding JSON; `fromJSON` either yields a
document or fails, so the parsed body is modelled as `Option Doc`.  The
service clock `nowFunc().Unix()` is passed explicitly as `now`.  Each
operation returns its response document (if any), the store after the
call, and the HTTP status code it reports. -/

/-- src/app.go `insert`: parse the body, stamp `_created` with the current
time, encode, put under a backend-generated id, set `_id` on the response. -/
def insert (s : Store) (kind : String) (body : Option Doc) (now : Int) :
    Option Doc × Store × Nat :=
  match body with
  | none => (none, s, 500)
  | some m =>
    let m := setKey m createdKey (.vint now)
    let pl := mapToPlist "" m
    let (newId, s') := s.putNew kind pl
    (some (setKey m idKey (.vint newId)), s', 200)

/-- src/app.go `get`: read the property list, decode it, set `_id`. -/
def get (s : Store) (kind : String) (id : Int) : Option Doc × Nat :=
  match s.get kind id with
  | none => (none, 404)
  | some pl => (some (setKey (plistToMap pl id) idKey (.vint id)), 200)

/-- src/app.go `delete2`: delete the entity, 404 when it did not exist. -/
def delete2 (s : Store) (kind : String) (id : Int) : Store × Nat :=
  match s.del kind id with
  | none => (s, 404)
  | some s' => (s', 200)

/-- src/app.go `update`: parse the body, drop caller-supplied `_created` and
`_id`, stamp `_updated`, encode, put under the given id (replacing the full
property set), set `_id` on the response.  The existing entity is never
read. -/
def update (s : Store) (kind : String) (id : Int) (body : Option Doc) (now : Int) :
    Option Doc × Store × Nat :=
  match body with
  | none => (none, s, 500)
  | some m =>
    let m := removeKey m createdKey
    let m := removeKey m idKey
    let m := setKey m updatedKey (.vint now)
    let pl := mapToPlist "" m
    let s' := s.put kind id pl
    (some (setKey m idKey (.vint id)), s', 200)

/-! ### Query translation and list -/

/-- src/app.go `filter`: one `where=key=value` equality filter. -/
structure Filter where
  Key : String
  Value : String

/-- src/app.go `userQuery`: the parsed user query parameters.  A zero
`Limit` and empty cursor/sort strings mean "absent" (Go zero values). -/
structure UserQuery where
  Limit : Int
  StartCursor : String
  EndCursor : String
  SortKey : String   -- the Go field is named `Sort`, a reserved word here
  Filters : List Filter

/-- The backend query assembled by src/app.go `list` before it runs:
`datastore.NewQuery(kind)` refined by `Limit`, `Order`, `Start`, `End` and
`Filter` calls.  Cursors are opaque backend tokens, modelled as the strings
a (partial) backend decoder accepts. -/
structure Query where
  kind : String
  limit : Option Int
  sort : Option String
  startC : Option String
  endC : Option String
  filters : List (String × String)

/-- src/app.go `list`, query-building phase: each bound is applied exactly
when present (nonzero limit, nonempty sort) — and a cursor bound exactly
when `datastore.DecodeCursor` succeeds on the token; a failed decode leaves
the query without that bound.  `dec` models the backend's own cursor
decoder (`datastore.DecodeCursor`, an external collaborator). -/
def buildQuery (dec : String → Option String) (kind : String) (uq : UserQuery) : Query where
  kind := kind
  limit := if uq.Limit ≠ 0 then some uq.Limit else none
  sort := if uq.SortKey ≠ "" then some uq.SortKey else none
  startC := dec uq.StartCursor
  endC := dec uq.EndCursor
  filters := uq.Filters.map (fun f => (f.Key, f.Value))

/-- One `t.Next` outcome of the backend query iterator (§6: a forward
iterator yielding (id, properties) and a per-step cursor): either a backend
error, or a row together with the outcome of the subsequent `t.Cursor()`
call.  Iterator exhaustion (`datastore.Done`) is the end of the list. -/
abbrev Step := Except Unit ((Int × List Property) × Except Unit String)

/-- The iteration loop of src/app.go `list`: decode each row via
`plistToMap`, append it to `items`, capture the iterator's cursor; a
backend error from `t.Next` or `t.Cursor` aborts the whole call with 500
and no items.  The initial cursor is the zero `datastore.Cursor`, whose
string form is empty. -/
def listRun : List Step → List Doc → String → Option (List Doc × String) × Nat
  | [], items, crs => (some (items, crs), 200)
  | .error _ :: _, _, _ => (none, 500)
  | .ok ((kid, pl), cr) :: rest, items, _ =>
    match cr with
    | .error _ => (none, 500)
    | .ok c => listRun rest (items ++ [plistToMap pl kid]) c

/-- src/app.go `list`: build the query, run it against the backend (`runQ`
models `q.Run(c)`, yielding the iterator's step sequence for a query), and
iterate.  On success the response carries `items` and `nextStartToken`. -/
def list (dec : String → Option String) (runQ : Query → List Step)
    (kind : String) (uq : UserQuery) : Option (List Doc × String) × Nat :=
  listRun (runQ (buildQuery dec kind uq)) [] ""

/-! ### Path parsing and dispatch -/

/-- `strconv.ParseInt(s, 10, 64)`: an optional sign followed by at least one
decimal digit, failing on any other character and on int64 overflow. -/
def parseDigits : List Char → Option Nat
  | [] => none
  | ds => ds.foldl
      (fun acc c =>
        acc.bind (fun n => if '0' ≤ c ∧ c ≤ '9' then some (n * 10 + (c.toNat - '0'.toNat)) else none))
      (some 0)

/-- `strconv.ParseInt(s, 10, 64)`. -/
def parseInt64 (s : String) : Option Int :=
  match s.data with
  | '+' :: ds => (parseDigits ds).bind (fun n => if n ≤ 2 ^ 63 - 1 then some (n : Int) else none)
  | '-' :: ds => (parseDigits ds).bind (fun n => if n ≤ 2 ^ 63 then some (-(n : Int)) else none)
  | ds => (parseDigits ds).bind (fun n => if n ≤ 2 ^ 63 - 1 then some (n : Int) else none)

/-- src/app.go `getKindAndID`: requires a leading `/` and a non-root path;
splits the remainder on `/`; one part is a collection request (id 0), two
parts parse the second as the id, more parts are invalid.  `none` models
the error return. -/
def getKindAndID (path : String) : Option (String × Int) :=
  match path.data with
  | '/' :: rest =>
    if rest = [] then none
    else
      match (splitChar '/' rest).map String.mk with
      | [kind] => some (kind, 0)
      | [kind, idStr] => (parseInt64 idStr).map (fun id => (kind, id))
      | _ => none
  | _ => none

/-- The operation src/app.go `handle` routes a request to. -/
inductive Action where
  | insertA | listA | getA | updateA | deleteA | methodNotAllowed | badRequest
deriving DecidableEq

/-- The routing logic of src/app.go `handle` after authentication: a parse
failure is 400; id 0 selects the collection operations (POST → insert,
GET → list, otherwise 405); a nonzero id selects the entity operations
(GET → get, DELETE → delete2, POST → update, otherwise 405). -/
def dispatch (method : String) (path : String) : Action :=
  match getKindAndID path with
  | none => .badRequest
  | some (_, id) =>
    if id = 0 then
      match method with
      | "POST" => .insertA
      | "GET" => .listA
      | _ => .methodNotAllowed
    else
      match method with
      | "GET" => .getA
      | "DELETE" => .deleteA
      | "POST" => .updateA
      | _ => .methodNotAllowed

/-! ### The class of documents on which the codec round-trips

`goodFields d` demands, at every nesting level: pairwise-distinct keys
containing no `.`, no empty nested document, and every array of length at
least 2 whose first element is not itself an array.  (Each excluded shape
is genuinely lossy for this codec: a dotted key aliases a nested path, an
empty document or empty array emits no properties, a singleton array
decodes back to a bare scalar, and a leading nested array absorbs the
following elements on decode.) -/

/-- The value is not an array. -/
def notArr : Value → Bool
  | .varr _ => false
  | _ => true

/-- The value is a nested document. -/
def isDoc : Value → Bool
  | .vdoc _ => true
  | _ => false

/-- The first element (if any) is not an array. -/
def headNotArr : List Value → Bool
  | [] => true
  | v :: _ => notArr v

mutual
/-- Values whose encoding decodes back to themselves; see the section
comment. -/
def goodVal : Value → Bool
  | .vnull => true
  | .vbool _ => true
  | .vint _ => true
  | .vstr _ => true
  | .varr l => decide (2 ≤ l.length) && headNotArr l
  | .vdoc m => !m.isEmpty && goodFields m

/-- Documents whose encoding decodes back to themselves; see the section
comment. -/
def goodFields : Doc → Bool
  | [] => true
  | (k, v) :: rest =>
    decide (('.') ∉ k.data) && decide (k ∉ keys rest) && goodVal v && goodFields rest
end

/-- The properties `mapToPlist` emits for one key/value pair (the body of
its per-pair loop, factored out for the proofs below). -/
def headProps (pre k : String) : Value → List Property
  | .vdoc m => mapToPlist (pre ++ k ++ ".") m
  | .varr l => l.map (fun mv => ⟨pre ++ k, mv, true⟩)
  | sc => [⟨pre ++ k, sc, false⟩]

/-- `pre` is the dotted prefix whose path segments are `ps` (each segment
followed by a `.`, no segment containing one). -/
def DottedPre (ps : List String) (pre : String) : Prop :=
  pre.data = (ps.map (fun s => s.data ++ ['.'])).flatten ∧ ∀ s ∈ ps, ('.') ∉ s.data

/-- Apply `f` to the node reached by the intermediate-segment walk of
`insertProp` (same branch structure, including the conflict skip); `docAt`
is that node, and `CleanB` says the walk only meets sub-documents or absent
keys (never the conflict branch). -/
def updAt (d : Doc) : List String → (Doc → Doc) → Doc
  | [], f => f d
  | p :: rest, f =>
    match lookupD d p with
    | some (.vdoc sub) => setKey d p (.vdoc (updAt sub rest f))
    | some _ => updAt d rest f
    | none => setKey d p (.vdoc (updAt [] rest f))

/-- The node reached by the walk (junk `[]` at a conflict or an absent
segment). -/
def docAt (d : Doc) : List String → Doc
  | [] => d
  | p :: rest =>
    match lookupD d p with
    | some (.vdoc sub) => docAt sub rest
    | _ => []

/-- Every existing entry met by the walk is a sub-document. -/
def CleanB (d : Doc) : List String → Bool
  | [] => true
  | p :: rest =>
    match lookupD d p with
    | some (.vdoc sub) => CleanB sub rest
    | some _ => false
    | none => true

/-! ### Lemmas: map primitives -/

theorem lookupD_setKey_self (d : Doc) (k : String) (v : Value) :
    lookupD (setKey d k v) k = some v := by
  induction d with
  | nil => simp [setKey, lookupD]
  | cons kv rest ih =>
    obtain ⟨k', v'⟩ := kv
    by_cases h : k' = k <;> simp [setKey, lookupD, h, ih]

theorem lookupD_setKey_ne (d : Doc) {k k' : String} (v : Value) (h : k' ≠ k) :
    lookupD (setKey d k v) k' = lookupD d k' := by
  induction d with
  | nil => simp [setKey, lookupD, Ne.symm h]
  | cons kv rest ih =>
    obtain ⟨k'', v''⟩ := kv
    by_cases h1 : k'' = k
    · subst h1
      simp [setKey, lookupD, Ne.symm h]
    · by_cases h2 : k'' = k' <;> simp [setKey, lookupD, h1, h2, h, ih]

theorem setKey_setKey (d : Doc) (k : String) (v w : Value) :
    setKey (setKey d k v) k w = setKey d k w := by
  induction d with
  | nil => simp [setKey]
  | cons kv rest ih =>
    obtain ⟨k', v'⟩ := kv
    by_cases h : k' = k <;> simp [setKey, h, ih]

theorem setKey_absent {d : Doc} {k : String} (v : Value) (h : lookupD d k = none) :
    setKey d k v = d ++ [(k, v)] := by
  induction d with
  | nil => simp [setKey]
  | cons kv rest ih =>
    obtain ⟨k', v'⟩ := kv
    by_cases h1 : k' = k
    · simp [lookupD, h1] at h
    · simp [lookupD, h1] at h
      simp [setKey, h1, ih h]

theorem lookupD_append_self {d : Doc} {k : String} (w : Value) (h : lookupD d k = none) :
    lookupD (d ++ [(k, w)]) k = some w := by
  induction d with
  | nil => simp [lookupD]
  | cons kv rest ih =>
    obtain ⟨k', v'⟩ := kv
    by_cases h1 : k' = k
    · simp [lookupD, h1] at h
    · simp [lookupD, h1] at h ⊢
      exact ih h

theorem lookupD_append_ne {d : Doc} {k k' : String} (w : Value) (h : lookupD d k' = none)
    (hne : k' ≠ k) : lookupD (d ++ [(k, w)]) k' = none := by
  induction d with
  | nil => simp [lookupD, Ne.symm hne]
  | cons kv rest ih =>
    obtain ⟨k'', v''⟩ := kv
    by_cases h1 : k'' = k'
    · simp [lookupD, h1] at h
    · simp [lookupD, h1] at h ⊢
      exact ih h

theorem setKey_append_absent {d : Doc} {k : String} (w u : Value)
    (h : lookupD d k = none) : setKey (d ++ [(k, w)]) k u = d ++ [(k, u)] := by
  induction d with
  | nil => simp [setKey]
  | cons kv rest ih =>
    obtain ⟨k', v'⟩ := kv
    by_cases h1 : k' = k
    · simp [lookupD, h1] at h
    · simp [lookupD, h1] at h
      simp [setKey, h1, ih h]

theorem setKey_self_of_lookup {d : Doc} {k : String} {v : Value}
    (h : lookupD d k = some v) : setKey d k v = d := by
  induction d with
  | nil => simp [lookupD] at h
  | cons kv rest ih =>
    obtain ⟨k', v'⟩ := kv
    by_cases h1 : k' = k
    · subst h1
      simp [lookupD] at h
      simp [setKey, h]
    · simp [lookupD, h1] at h
      simp [setKey, h1, ih h]

/-! ### Lemmas: splitting names -/

theorem splitChar_ne_nil (c : Char) (l : List Char) : splitChar c l ≠ [] := by
  induction l with
  | nil => simp [splitChar]
  | cons x xs ih =>
    by_cases h : x = c
    · simp [splitChar, h]
    · simp only [splitChar, if_neg h]
      cases hs : splitChar c xs with
      | nil => simp
      | cons y ys => simp

theorem splitChar_not_mem {c : Char} {l : List Char} (h : c ∉ l) :
    splitChar c l = [l] := by
  induction l with
  | nil => simp [splitChar]
  | cons x xs ih =>
    simp only [List.mem_cons, not_or] at h
    simp [splitChar, Ne.symm h.1, ih h.2]

theorem splitChar_append {c : Char} {l1 : List Char} (l2 : List Char) (h : c ∉ l1) :
    splitChar c (l1 ++ c :: l2) = l1 :: splitChar c l2 := by
  induction l1 with
  | nil => simp [splitChar]
  | cons x xs ih =>
    simp only [List.mem_cons, not_or] at h
    simp only [List.cons_append, splitChar, List.append_eq, if_neg (Ne.symm h.1), ih h.2]

theorem string_mk_data (s : String) : String.mk s.data = s := rfl

theorem splitName_pre {ps : List String} {pre : String} (k : String)
    (hd : DottedPre ps pre) (hk : ('.') ∉ k.data) :
    splitName (pre ++ k) = ps ++ [k] := by
  obtain ⟨hdata, hfree⟩ := hd
  unfold splitName
  rw [String.data_append, hdata]
  clear hdata
  induction ps with
  | nil =>
    simp only [List.map_nil, List.flatten_nil, List.nil_append]
    rw [splitChar_not_mem hk]
    simp [string_mk_data]
  | cons s ps ih =>
    have hs : ('.') ∉ s.data := hfree s (by simp)
    simp only [List.map_cons, List.flatten_cons, List.append_assoc, List.singleton_append,
      List.cons_append]
    rw [splitChar_append _ hs]
    simp only [List.map_cons, string_mk_data, List.cons_append, List.nil_append]
    rw [ih (fun t ht => hfree t (by simp [ht]))]

/-! ### Lemmas: the decode walk -/

theorem cleanB_nil (ps : List String) : CleanB [] ps = true := by
  cases ps <;> simp [CleanB, lookupD]

theorem docAt_nil (ps : List String) : docAt [] ps = [] := by
  cases ps <;> simp [docAt, lookupD]

theorem insertProp_eq_updAt (ps : List String) :
    ∀ (m : Doc) (leaf : String) (v : Value),
      insertProp m (ps ++ [leaf]) v = updAt m ps (fun s => leafIns s leaf v) := by
  induction ps with
  | nil => intro m leaf v; rfl
  | cons p rest ih =>
    intro m leaf v
    cases rest with
    | nil =>
      show insertProp m (p :: [leaf]) v = _
      cases hl : lookupD m p with
      | none => simp [insertProp, updAt, hl, ih]
      | some w => cases w <;> simp [insertProp, updAt, hl, ih]
    | cons q rest' =>
      simp only [List.cons_append] at ih
      show insertProp m (p :: ((q :: rest') ++ [leaf])) v = _
      cases hl : lookupD m p with
      | none => simp [insertProp, updAt, hl, ih]
      | some w => cases w <;> simp [insertProp, updAt, hl, ih]

theorem cleanB_updAt (ps : List String) :
    ∀ (m : Doc) (f : Doc → Doc), CleanB m ps = true → CleanB (updAt m ps f) ps = true := by
  induction ps with
  | nil => intro m f _; rfl
  | cons p rest ih =>
    intro m f hc
    cases hl : lookupD m p with
    | none =>
      simp only [updAt, hl, CleanB, lookupD_setKey_self]
      exact ih [] f (cleanB_nil rest)
    | some w =>
      cases w with
      | vdoc sub =>
        simp only [CleanB, hl] at hc
        simp only [updAt, hl, CleanB, lookupD_setKey_self]
        exact ih sub f hc
      | vnull => simp [CleanB, hl] at hc
      | vbool b => simp [CleanB, hl] at hc
      | vint n => simp [CleanB, hl] at hc
      | vstr t => simp [CleanB, hl] at hc
      | varr l => simp [CleanB, hl] at hc

theorem updAt_updAt (ps : List String) :
    ∀ (m : Doc) (f g : Doc → Doc), CleanB m ps = true →
      updAt (updAt m ps f) ps g = updAt m ps (fun s => g (f s)) := by
  induction ps with
  | nil => intro m f g _; rfl
  | cons p rest ih =>
    intro m f g hc
    cases hl : lookupD m p with
    | none =>
      simp only [updAt, hl, lookupD_setKey_self, setKey_setKey]
      rw [ih [] f g (cleanB_nil rest)]
    | some w =>
      cases w with
      | vdoc sub =>
        simp only [CleanB, hl] at hc
        simp only [updAt, hl, lookupD_setKey_self, setKey_setKey]
        rw [ih sub f g hc]
      | vnull => simp [CleanB, hl] at hc
      | vbool b => simp [CleanB, hl] at hc
      | vint n => simp [CleanB, hl] at hc
      | vstr t => simp [CleanB, hl] at hc
      | varr l => simp [CleanB, hl] at hc

theorem docAt_updAt (ps : List String) :
    ∀ (m : Doc) (f : Doc → Doc), CleanB m ps = true →
      docAt (updAt m ps f) ps = f (docAt m ps) := by
  induction ps with
  | nil => intro m f _; rfl
  | cons p rest ih =>
    intro m f hc
    cases hl : lookupD m p with
    | none =>
      simp only [updAt, hl, docAt, lookupD_setKey_self]
      rw [ih [] f (cleanB_nil rest), docAt_nil]
    | some w =>
      cases w with
      | vdoc sub =>
        simp only [CleanB, hl] at hc
        simp only [updAt, hl, docAt, lookupD_setKey_self]
        exact ih sub f hc
      | vnull => simp [CleanB, hl] at hc
      | vbool b => simp [CleanB, hl] at hc
      | vint n => simp [CleanB, hl] at hc
      | vstr t => simp [CleanB, hl] at hc
      | varr l => simp [CleanB, hl] at hc

theorem updAt_congr (ps : List String) :
    ∀ (m : Doc) (f g : Doc → Doc), CleanB m ps = true →
      f (docAt m ps) = g (docAt m ps) → updAt m ps f = updAt m ps g := by
  induction ps with
  | nil => intro m f g _ hfg; exact hfg
  | cons p rest ih =>
    intro m f g hc hfg
    cases hl : lookupD m p with
    | none =>
      simp only [docAt, hl] at hfg
      simp only [updAt, hl]
      rw [ih [] f g (cleanB_nil rest) (by rw [docAt_nil]; exact hfg)]
    | some w =>
      cases w with
      | vdoc sub =>
        simp only [CleanB, hl] at hc
        simp only [docAt, hl] at hfg
        simp only [updAt, hl]
        rw [ih sub f g hc hfg]
      | vnull => simp [CleanB, hl] at hc
      | vbool b => simp [CleanB, hl] at hc
      | vint n => simp [CleanB, hl] at hc
      | vstr t => simp [CleanB, hl] at hc
      | varr l => simp [CleanB, hl] at hc

theorem updAt_append (ps qs : List String) :
    ∀ (m : Doc) (f : Doc → Doc),
      updAt m (ps ++ qs) f = updAt m ps (fun s => updAt s qs f) := by
  induction ps with
  | nil => intro m f; rfl
  | cons p rest ih =>
    intro m f
    cases hl : lookupD m p with
    | none => simp only [List.cons_append, updAt, hl, List.append_eq, ih]
    | some w => cases w <;> simp only [List.cons_append, updAt, hl, List.append_eq, ih]

theorem docAt_append (ps qs : List String) :
    ∀ (m : Doc), docAt m (ps ++ qs) = docAt (docAt m ps) qs := by
  induction ps with
  | nil => intro m; rfl
  | cons p rest ih =>
    intro m
    cases hl : lookupD m p with
    | none => simp only [List.cons_append, docAt, hl, List.append_eq, ih, docAt_nil]
    | some w => cases w <;> simp only [List.cons_append, docAt, hl, List.append_eq, ih, docAt_nil]

theorem cleanB_snoc (ps : List String) :
    ∀ (m : Doc) (k : String), CleanB m ps = true →
      lookupD (docAt m ps) k = none → CleanB m (ps ++ [k]) = true := by
  induction ps with
  | nil =>
    intro m k _ hfresh
    simp only [List.nil_append]
    simp only [docAt] at hfresh
    simp [CleanB, hfresh]
  | cons p rest ih =>
    intro m k hc hfresh
    cases hl : lookupD m p with
    | none => simp [CleanB, hl]
    | some w =>
      cases w with
      | vdoc sub =>
        simp only [CleanB, hl] at hc
        simp only [docAt, hl] at hfresh
        simp only [List.cons_append, CleanB, hl]
        exact ih sub k hc hfresh
      | vnull => simp [CleanB, hl] at hc
      | vbool b => simp [CleanB, hl] at hc
      | vint n => simp [CleanB, hl] at hc
      | vstr t => simp [CleanB, hl] at hc
      | varr l => simp [CleanB, hl] at hc

theorem foldl_updAt {α : Type} (ps : List String) :
    ∀ (l : List α), l ≠ [] → ∀ (m : Doc) (f : α → Doc → Doc), CleanB m ps = true →
      l.foldl (fun m x => updAt m ps (f x)) m
        = updAt m ps (fun s => l.foldl (fun s x => f x s) s) := by
  intro l
  induction l with
  | nil => intro h; exact absurd rfl h
  | cons x t ih =>
    intro _ m f hc
    cases t with
    | nil => rfl
    | cons y t' =>
      rw [List.foldl_cons]
      rw [ih (by simp) (updAt m ps (f x)) f (cleanB_updAt ps m (f x) hc)]
      rw [updAt_updAt ps m (f x) _ hc]
      simp only [List.foldl_cons]

theorem foldl_leafIns_arr (vs : List Value) :
    ∀ (s : Doc) (k : String) (l : List Value), lookupD s k = none →
      vs.foldl (fun s v => leafIns s k v) (s ++ [(k, .varr l)])
        = s ++ [(k, .varr (l ++ vs))] := by
  induction vs with
  | nil => intro s k l _; simp
  | cons v vs ih =>
    intro s k l hk
    simp only [List.foldl_cons]
    rw [show leafIns (s ++ [(k, .varr l)]) k v = s ++ [(k, .varr (l ++ [v]))] by
      simp only [leafIns, lookupD_append_self _ hk]
      exact setKey_append_absent _ _ hk]
    rw [ih s k (l ++ [v]) hk]
    simp

theorem ne_nil_of_not_isEmpty {α : Type} {l : List α} (h : (!l.isEmpty) = true) : l ≠ [] := by
  cases l <;> simp_all

/-! ### The round-trip lemma -/

/-- Main decoding lemma: folding the properties `mapToPlist pre d` emits for
a good, nonempty document `d` into any accumulator that is clean along the
prefix path and fresh for `d`'s keys appends exactly `d` at the node the
path reaches. -/
theorem decode_encode_aux (n : Nat) :
    ∀ (d : Doc), sizeOf d < n → goodFields d = true → d ≠ [] →
    ∀ (ps : List String) (pre : String) (m₀ : Doc),
      DottedPre ps pre → CleanB m₀ ps = true →
      (∀ k ∈ keys d, lookupD (docAt m₀ ps) k = none) →
      (mapToPlist pre d).foldl (fun (m : Doc) (p : Property) =>
          insertProp m (splitName p.name) p.value) m₀
        = updAt m₀ ps (fun s => s ++ d) := by
  induction n with
  | zero => intro d hs; omega
  | succ n ih =>
    intro d hsize hg hne ps pre m₀ hpre hclean hfresh
    cases d with
    | nil => exact absurd rfl hne
    | cons kv rest =>
      obtain ⟨k, v⟩ := kv
      simp only [goodFields, Bool.and_eq_true, decide_eq_true_eq] at hg
      obtain ⟨⟨⟨hkdot, hknotin⟩, hgv⟩, hgrest⟩ := hg
      have hfk : lookupD (docAt m₀ ps) k = none := hfresh k (by simp [keys])
      have hsplit : splitName (pre ++ k) = ps ++ [k] := splitName_pre k hpre hkdot
      have hleaf : ∀ (w : Value), leafIns (docAt m₀ ps) k w = docAt m₀ ps ++ [(k, w)] := by
        intro w
        simp only [leafIns, hfk]
        exact setKey_absent _ hfk
      have hScalarBlock : ∀ (w : Value),
          List.foldl (fun (m : Doc) (p : Property) =>
              insertProp m (splitName p.name) p.value) m₀ [⟨pre ++ k, w, false⟩]
            = updAt m₀ ps (fun s => s ++ [(k, w)]) := by
        intro w
        simp only [List.foldl_cons, List.foldl_nil]
        show insertProp m₀ (splitName (pre ++ k)) w = _
        rw [hsplit, insertProp_eq_updAt]
        exact updAt_congr ps m₀ _ _ hclean (hleaf w)
      have hunfold : mapToPlist pre ((k, v) :: rest)
          = headProps pre k v ++ mapToPlist pre rest := by
        cases v <;> simp only [mapToPlist, headProps]
      have hB : List.foldl (fun (m : Doc) (p : Property) =>
            insertProp m (splitName p.name) p.value) m₀ (headProps pre k v)
          = updAt m₀ ps (fun s => s ++ [(k, v)]) := by
        cases v with
        | vnull => exact hScalarBlock .vnull
        | vbool b => exact hScalarBlock (.vbool b)
        | vint i => exact hScalarBlock (.vint i)
        | vstr t => exact hScalarBlock (.vstr t)
        | vdoc sub =>
          simp only [goodVal, Bool.and_eq_true] at hgv
          obtain ⟨hsubne', hgsub⟩ := hgv
          have hsubne : sub ≠ [] := ne_nil_of_not_isEmpty hsubne'
          have hsub : sizeOf sub < n := by
            simp only [List.cons.sizeOf_spec, Prod.mk.sizeOf_spec, Value.vdoc.sizeOf_spec]
              at hsize
            omega
          have hpre' : DottedPre (ps ++ [k]) (pre ++ k ++ ".") := by
            obtain ⟨hdata, hfree⟩ := hpre
            constructor
            · show (pre ++ k ++ ".").data = _
              have hd : (pre ++ k ++ ".").data = pre.data ++ (k.data ++ ['.']) := by
                simp [String.data_append]
              rw [hd, hdata]
              simp
            · intro s hs
              rcases List.mem_append.1 hs with h | h
              · exact hfree s h
              · simp only [List.mem_singleton] at h
                subst h
                exact hkdot
          have hclean' : CleanB m₀ (ps ++ [k]) = true := cleanB_snoc ps m₀ k hclean hfk
          have hfresh' : ∀ k' ∈ keys sub, lookupD (docAt m₀ (ps ++ [k])) k' = none := by
            intro k' _
            rw [docAt_append ps [k] m₀]
            simp [docAt, hfk, lookupD]
          show List.foldl _ m₀ (mapToPlist (pre ++ k ++ ".") sub) = _
          rw [ih sub hsub hgsub hsubne (ps ++ [k]) (pre ++ k ++ ".") m₀ hpre' hclean' hfresh']
          rw [updAt_append ps [k] m₀]
          apply updAt_congr ps m₀ _ _ hclean
          show updAt (docAt m₀ ps) [k] (fun s => s ++ sub) = docAt m₀ ps ++ [(k, .vdoc sub)]
          simp only [updAt, hfk, List.nil_append]
          exact setKey_absent _ hfk
        | varr l =>
          simp only [goodVal, Bool.and_eq_true, decide_eq_true_eq] at hgv
          obtain ⟨hlen, hhead⟩ := hgv
          show List.foldl _ m₀ (l.map (fun mv => (⟨pre ++ k, mv, true⟩ : Property))) = _
          rw [List.foldl_map]
          have hfun : (fun (x : Doc) (y : Value) =>
                insertProp x (splitName (Property.name ⟨pre ++ k, y, true⟩))
                  (Property.value ⟨pre ++ k, y, true⟩))
              = fun (x : Doc) (y : Value) => updAt x ps (fun s => leafIns s k y) := by
            funext x y
            show insertProp x (splitName (pre ++ k)) y = _
            rw [hsplit, insertProp_eq_updAt]
          rw [hfun]
          match l, hlen, hhead with
          | v0 :: v1 :: vs, _, hhead =>
            rw [foldl_updAt ps (v0 :: v1 :: vs) (by simp) m₀ _ hclean]
            apply updAt_congr ps m₀ _ _ hclean
            show List.foldl (fun s mv => leafIns s k mv) (docAt m₀ ps) (v0 :: v1 :: vs)
              = docAt m₀ ps ++ [(k, .varr (v0 :: v1 :: vs))]
            have h1 : leafIns (docAt m₀ ps ++ [(k, v0)]) k v1
                = docAt m₀ ps ++ [(k, .varr [v0, v1])] := by
              have hl0 : lookupD (docAt m₀ ps ++ [(k, v0)]) k = some v0 :=
                lookupD_append_self v0 hfk
              cases v0 with
              | varr l0 => simp [headNotArr, notArr] at hhead
              | vnull => simp only [leafIns, hl0]; exact setKey_append_absent _ _ hfk
              | vbool b => simp only [leafIns, hl0]; exact setKey_append_absent _ _ hfk
              | vint i => simp only [leafIns, hl0]; exact setKey_append_absent _ _ hfk
              | vstr t => simp only [leafIns, hl0]; exact setKey_append_absent _ _ hfk
              | vdoc sd => simp only [leafIns, hl0]; exact setKey_append_absent _ _ hfk
            rw [List.foldl_cons, hleaf v0, List.foldl_cons, h1,
              foldl_leafIns_arr vs (docAt m₀ ps) k [v0, v1] hfk]
            simp
      rw [hunfold, List.foldl_append, hB]
      cases rest with
      | nil =>
        simp only [mapToPlist, List.foldl_nil]
      | cons r rs =>
        have hrs : sizeOf (r :: rs) < n := by
          simp only [List.cons.sizeOf_spec, Prod.mk.sizeOf_spec] at hsize ⊢
          omega
        have hclean₁ : CleanB (updAt m₀ ps (fun s => s ++ [(k, v)])) ps = true :=
          cleanB_updAt ps m₀ _ hclean
        have hfresh₁ : ∀ k' ∈ keys (r :: rs),
            lookupD (docAt (updAt m₀ ps (fun s => s ++ [(k, v)])) ps) k' = none := by
          intro k' hk'
          rw [docAt_updAt ps m₀ _ hclean]
          have hne' : k' ≠ k := fun h => hknotin (h ▸ hk')
          have hmem : k' ∈ keys ((k, v) :: r :: rs) := by
            simp only [keys, List.map_cons, List.mem_cons] at hk' ⊢
            exact Or.inr hk'
          exact lookupD_append_ne v (hfresh k' hmem) hne'
        rw [ih (r :: rs) hrs hgrest (by simp) ps pre _ hpre hclean₁ hfresh₁]
        rw [updAt_updAt ps m₀ _ _ hclean]
        have hfin : (fun s => (s ++ [(k, v)]) ++ (r :: rs))
            = fun s => s ++ (k, v) :: r :: rs := by
          funext s
          simp
        rw [hfin]

/-- The codec round-trip on the good class: decoding the encoded property
list of a good document `d` (that does not already bind `_id`) under the
identifier `id` yields exactly `d` with the extra `_id` entry appended. -/
theorem decode_encode {d : Doc} (id : Int) (hg : goodFields d = true)
    (hid : lookupD d idKey = none) :
    plistToMap (mapToPlist "" d) id = d ++ [(idKey, .vint id)] := by
  unfold plistToMap
  cases d with
  | nil => simp [mapToPlist, setKey]
  | cons kv rest =>
    rw [decode_encode_aux (sizeOf (kv :: rest) + 1) (kv :: rest) (by omega) hg (by simp)
      [] "" [] ⟨rfl, by simp⟩ rfl (by intro k _; simp [docAt, lookupD])]
    show setKey ([] ++ kv :: rest) idKey (.vint id) = _
    rw [List.nil_append]
    exact setKey_absent _ hid

/-! ### Lemmas: removeKey and key sets -/

theorem lookupD_removeKey_self (d : Doc) (k : String) :
    lookupD (removeKey d k) k = none := by
  induction d with
  | nil => rfl
  | cons kv rest ih =>
    obtain ⟨k', v'⟩ := kv
    by_cases h : k' = k <;> simp [removeKey, lookupD, h, ih]

theorem removeKey_idem (d : Doc) (k : String) :
    removeKey (removeKey d k) k = removeKey d k := by
  induction d with
  | nil => rfl
  | cons kv rest ih =>
    obtain ⟨k', v'⟩ := kv
    by_cases h : k' = k <;> simp [removeKey, h, ih]

theorem removeKey_comm (d : Doc) (k1 k2 : String) :
    removeKey (removeKey d k1) k2 = removeKey (removeKey d k2) k1 := by
  induction d with
  | nil => rfl
  | cons kv rest ih =>
    obtain ⟨k', v'⟩ := kv
    by_cases h1 : k' = k1
    · by_cases h2 : k' = k2
      · subst h1
        subst h2
        simp [removeKey, ih]
      · subst h1
        simp [removeKey, h2, ih]
    · by_cases h2 : k' = k2
      · subst h2
        simp [removeKey, h1, ih]
      · simp [removeKey, h1, h2, ih]

theorem keys_cons (k : String) (v : Value) (d : Doc) :
    keys ((k, v) :: d) = k :: keys d := rfl

theorem mem_keys_removeKey {d : Doc} {k k' : String}
    (h : k' ∈ keys (removeKey d k)) : k' ∈ keys d := by
  induction d with
  | nil => exact h
  | cons kv rest ih =>
    obtain ⟨k'', v''⟩ := kv
    rw [keys_cons]
    by_cases h1 : k'' = k
    · simp only [removeKey, if_pos h1] at h
      exact List.mem_cons_of_mem _ (ih h)
    · simp only [removeKey, if_neg h1, keys_cons, List.mem_cons] at h
      rcases h with h | h
      · exact List.mem_cons.2 (Or.inl h)
      · exact List.mem_cons_of_mem _ (ih h)

theorem mem_keys_setKey {d : Doc} {k k' : String} {v : Value}
    (h : k' ∈ keys (setKey d k v)) : k' ∈ keys d ∨ k' = k := by
  induction d with
  | nil =>
    simp only [setKey, keys_cons, List.mem_cons] at h
    rcases h with h | h
    · exact Or.inr h
    · simp [keys] at h
  | cons kv rest ih =>
    obtain ⟨k'', v''⟩ := kv
    by_cases h1 : k'' = k
    · simp only [setKey, if_pos h1, keys_cons, List.mem_cons] at h
      rcases h with h | h
      · exact Or.inr h
      · exact Or.inl (List.mem_cons_of_mem _ h)
    · simp only [setKey, if_neg h1, keys_cons, List.mem_cons] at h
      rcases h with h | h
      · exact Or.inl (List.mem_cons.2 (Or.inl h))
      · rcases ih h with h | h
        · exact Or.inl (List.mem_cons_of_mem _ h)
        · exact Or.inr h

theorem goodFields_removeKey {d : Doc} (k : String) (hg : goodFields d = true) :
    goodFields (removeKey d k) = true := by
  induction d with
  | nil => exact hg
  | cons kv rest ih =>
    obtain ⟨k', v'⟩ := kv
    simp only [goodFields, Bool.and_eq_true, decide_eq_true_eq] at hg
    obtain ⟨⟨⟨hdot, hnotin⟩, hv⟩, hrest⟩ := hg
    by_cases h1 : k' = k
    · simp only [removeKey, if_pos h1]
      exact ih hrest
    · simp only [removeKey, if_neg h1, goodFields, Bool.and_eq_true, decide_eq_true_eq]
      exact ⟨⟨⟨hdot, fun hmem => hnotin (mem_keys_removeKey hmem)⟩, hv⟩, ih hrest⟩

theorem goodFields_setKey {d : Doc} {k : String} {v : Value} (hg : goodFields d = true)
    (hdot : ('.') ∉ k.data) (hv : goodVal v = true) :
    goodFields (setKey d k v) = true := by
  induction d with
  | nil =>
    simp only [setKey, goodFields, Bool.and_eq_true, decide_eq_true_eq]
    exact ⟨⟨⟨hdot, by simp [keys]⟩, hv⟩, trivial⟩
  | cons kv rest ih =>
    obtain ⟨k', v'⟩ := kv
    simp only [goodFields, Bool.and_eq_true, decide_eq_true_eq] at hg
    obtain ⟨⟨⟨hdot', hnotin'⟩, hv'⟩, hrest⟩ := hg
    by_cases h1 : k' = k
    · subst h1
      simp only [setKey, if_pos rfl, goodFields, Bool.and_eq_true, decide_eq_true_eq]
      exact ⟨⟨⟨hdot, hnotin'⟩, hv⟩, hrest⟩
    · simp only [setKey, if_neg h1, goodFields, Bool.and_eq_true, decide_eq_true_eq]
      refine ⟨⟨⟨hdot', fun hmem => ?_⟩, hv'⟩, ih hrest⟩
      rcases mem_keys_setKey hmem with h | h
      · exact hnotin' h
      · exact h1 h

theorem lookupD_removeKey_ne (d : Doc) {k k' : String} (h : k' ≠ k) :
    lookupD (removeKey d k) k' = lookupD d k' := by
  induction d with
  | nil => rfl
  | cons kv rest ih =>
    obtain ⟨k'', v''⟩ := kv
    by_cases h1 : k'' = k
    · subst h1
      simp [removeKey, lookupD, Ne.symm h, ih]
    · by_cases h2 : k'' = k' <;> simp [removeKey, lookupD, h1, h2, h, ih]

/-! ### Lemmas: the backend store -/

theorem find?_setEntry_self (es : List ((String × Int) × List Property))
    (key : String × Int) (pl : List Property) :
    (setEntry es key pl).find? (fun e => e.1 = key) = some (key, pl) := by
  induction es with
  | nil => simp [setEntry, List.find?]
  | cons e rest ih =>
    obtain ⟨key', pl'⟩ := e
    by_cases h : key' = key <;> simp [setEntry, List.find?, h, ih]

theorem find?_setEntry_ne (es : List ((String × Int) × List Property))
    {key key' : String × Int} (pl : List Property) (h : key' ≠ key) :
    (setEntry es key pl).find? (fun e => e.1 = key')
      = es.find? (fun e => e.1 = key') := by
  induction es with
  | nil => simp [setEntry, List.find?, Ne.symm h]
  | cons e rest ih =>
    obtain ⟨key'', pl''⟩ := e
    by_cases h1 : key'' = key
    · subst h1
      simp [setEntry, List.find?, Ne.symm h, ih]
    · by_cases h2 : key'' = key' <;> simp [setEntry, List.find?, h1, h2, h, ih]

theorem Store.get_put (s : Store) (kind : String) (id : Int) (pl : List Property) :
    (s.put kind id pl).get kind id = some pl := by
  simp [Store.get, Store.put, find?_setEntry_self]

theorem Store.get_putNew (s : Store) (kind : String) (pl : List Property) :
    (s.putNew kind pl).2.get kind (s.putNew kind pl).1 = some pl := by
  simp [Store.get, Store.putNew, find?_setEntry_self]

theorem Store.get_fresh {s : Store} (kind : String) (hwf : StoreWF s = true) :
    s.get kind s.nextId = none := by
  unfold Store.get
  rw [List.find?_eq_none.2]
  · rfl
  · intro e he
    simp only [StoreWF, List.all_eq_true] at hwf
    have := hwf e he
    simp only [decide_eq_true_eq] at this
    simp only [decide_eq_true_eq]
    intro hcontr
    rw [hcontr] at this
    simp at this

theorem find?_filter_ne (es : List ((String × Int) × List Property))
    (key : String × Int) :
    (es.filter (fun e => e.1 ≠ key)).find? (fun e => e.1 = key) = none := by
  induction es with
  | nil => rfl
  | cons e rest ih =>
    obtain ⟨key', pl'⟩ := e
    by_cases h : key' = key <;> simp [List.filter, List.find?, h, ih]

theorem Store.get_del {s s' : Store} {kind : String} {id : Int}
    (h : s.del kind id = some s') : s'.get kind id = none := by
  unfold Store.del at h
  by_cases hp : (s.get kind id).isSome
  · simp only [if_pos hp, Option.some.injEq] at h
    subst h
    simp [Store.get, find?_filter_ne]
  · simp [if_neg hp] at h

/-! ### Lemmas: the list iteration -/

theorem listRun_next_error (pre : List Step) :
    ∀ (rest : List Step) (items : List Doc) (crs : String),
      listRun (pre ++ .error () :: rest) items crs = (none, 500) := by
  induction pre with
  | nil => intro rest items crs; rfl
  | cons s pre' ih =>
    intro rest items crs
    cases s with
    | error e => rfl
    | ok row =>
      obtain ⟨⟨kid, pl⟩, cr⟩ := row
      cases cr with
      | error e => rfl
      | ok c => exact ih rest _ c

theorem listRun_cursor_error (pre : List Step) :
    ∀ (rest : List Step) (kid : Int) (pl : List Property) (items : List Doc) (crs : String),
      listRun (pre ++ .ok ((kid, pl), .error ()) :: rest) items crs = (none, 500) := by
  induction pre with
  | nil => intro rest kid pl items crs; rfl
  | cons s pre' ih =>
    intro rest kid pl items crs
    cases s with
    | error e => rfl
    | ok row =>
      obtain ⟨⟨kid', pl'⟩, cr⟩ := row
      cases cr with
      | error e => rfl
      | ok c => exact ih rest kid pl _ c

/-! ### Claims -/

/-- C1, counterexample: the round-trip equation fails on the document
`{a: []}`, whose only array-valued field has length 0 (which is ≠ 1): its
encoding emits no properties, so decoding with identifier 7 yields only
`{_id: 7}` — the field `a` is lost, and the result is not `d` plus the
extra `_id` entry. -/
theorem C1_counterexample :
    plistToMap (mapToPlist "" [("a", Value.varr [])]) 7 = [(idKey, Value.vint 7)]
      ∧ lookupD (plistToMap (mapToPlist "" [("a", Value.varr [])]) 7) "a" = none
      ∧ lookupD [("a", Value.varr [])] "a" = some (Value.varr []) := by
  refine ⟨?_, ?_, rfl⟩ <;>
    simp [plistToMap, mapToPlist, setKey, lookupD, idKey]

/-- C1, amended: for every document in the codec's lossless class — at
every nesting level the keys are pairwise distinct and dot-free, nested
documents are nonempty, and every array has length at least 2 and does not
start with a nested array — and that does not itself bind `_id`, decoding
the encoded property list with identifier `id` yields exactly the document
plus the extra `{_id: id}` entry. -/
theorem C1_roundtrip {d : Doc} (id : Int) (hg : goodFields d = true)
    (hid : lookupD d idKey = none) :
    plistToMap (mapToPlist "" d) id = d ++ [(idKey, Value.vint id)] :=
  decode_encode id hg hid

/-- C1, witness: the round-trip theorem applied to a concrete document with
a string field, a 2-element array and a nested document. -/
theorem C1_roundtrip_witness :
    goodFields [("name", Value.vstr "Alice"),
        ("tags", Value.varr [Value.vstr "a", Value.vstr "b"]),
        ("addr", Value.vdoc [("city", Value.vstr "X")])] = true
    ∧ lookupD [("name", Value.vstr "Alice"),
        ("tags", Value.varr [Value.vstr "a", Value.vstr "b"]),
        ("addr", Value.vdoc [("city", Value.vstr "X")])] idKey = none
    ∧ plistToMap (mapToPlist "" [("name", Value.vstr "Alice"),
        ("tags", Value.varr [Value.vstr "a", Value.vstr "b"]),
        ("addr", Value.vdoc [("city", Value.vstr "X")])]) 7
      = [("name", Value.vstr "Alice"),
        ("tags", Value.varr [Value.vstr "a", Value.vstr "b"]),
        ("addr", Value.vdoc [("city", Value.vstr "X")])] ++ [(idKey, Value.vint 7)] :=
  ⟨by decide, rfl, C1_roundtrip 7 (by decide) rfl⟩

/-- C2, counterexample: decoding the property list `[a = 1, a.a = 2]` does
not drop the conflicting property `a.a`: it changes the already-stored
scalar at `a` into the two-element array `[1, 2]`, whereas dropping it
would leave `a = 1`. -/
theorem C2_counterexample :
    lookupD (plistToMap [⟨"a", Value.vint 1, false⟩, ⟨"a.a", Value.vint 2, false⟩] 7) "a"
        = some (Value.varr [Value.vint 1, Value.vint 2])
    ∧ lookupD (plistToMap [⟨"a", Value.vint 1, false⟩] 7) "a" = some (Value.vint 1)
    ∧ some (Value.varr [Value.vint 1, Value.vint 2]) ≠ some (Value.vint 1) := by
  refine ⟨?_, ?_, by simp⟩ <;>
    simp [plistToMap, insertProp, leafIns, splitName, splitChar, setKey, lookupD, idKey]

/-- C2, amended: when an intermediate path segment holds a non-document
value, decoding neither fails nor drops the conflicting property: the walk
keeps the current node and continues with the remaining segments, so the
property is inserted relative to the node where descent stopped (which can
modify the value already stored there, as the counterexample shows). -/
theorem C2_conflict_skip (m : Doc) (p q : String) (rest : List String) (v w : Value)
    (hl : lookupD m p = some w) (hw : isDoc w = false) :
    insertProp m (p :: q :: rest) v = insertProp m (q :: rest) v := by
  cases w with
  | vdoc sub => simp [isDoc] at hw
  | vnull => simp [insertProp, hl]
  | vbool b => simp [insertProp, hl]
  | vint i => simp [insertProp, hl]
  | vstr t => simp [insertProp, hl]
  | varr l => simp [insertProp, hl]

/-- C2, witness: the skip equation at the concrete conflicting input. -/
theorem C2_conflict_skip_witness :
    lookupD [("a", Value.vint 1)] "a" = some (Value.vint 1)
    ∧ isDoc (Value.vint 1) = false
    ∧ insertProp [("a", Value.vint 1)] ["a", "b"] (Value.vint 2)
        = insertProp [("a", Value.vint 1)] ["b"] (Value.vint 2) :=
  ⟨rfl, rfl, C2_conflict_skip [("a", Value.vint 1)] "a" "b" [] (Value.vint 2)
    (Value.vint 1) rfl rfl⟩

/-- C3, counterexample: with the payload `{a: []}` (an empty array), the
subsequent get does not return the field `a` of the new payload — the
response after updating entity 1 is exactly `{_updated: 50, _id: 1}` — so
"get(id) returns exactly the fields of newBody (plus metadata)" fails for
this payload. -/
theorem C3_counterexample :
    (get (update ⟨[(("k", 1), [⟨"old", Value.vint 9, false⟩])], 2⟩ "k" 1
        (some [("a", Value.varr [])]) 50).2.1 "k" 1).1
      = some [(updatedKey, Value.vint 50), (idKey, Value.vint 1)]
    ∧ lookupD [(updatedKey, Value.vint 50), (idKey, Value.vint 1)] "a" = none := by
  refine ⟨?_, rfl⟩
  simp [update, get, Store.put, Store.get, setEntry, removeKey, setKey, mapToPlist,
    plistToMap, insertProp, leafIns, splitName, splitChar, lookupD, idKey, createdKey,
    updatedKey, List.find?]

/-- C3, amended: update is a full replace.  For every store, entity and
payload — with no restriction on the payload — the stored property set
after `update(id, newBody)` is exactly the encoding of the processed
payload (the payload minus the reserved `_created`/`_id` keys, plus the
`_updated` stamp), independent of whatever was stored before.  When the
payload is moreover in the codec's lossless class, the subsequent get
returns exactly those fields plus `_id`: every previously stored field
absent from the payload is gone. -/
theorem C3_full_replace :
    (∀ (s : Store) (kind : String) (id : Int) (m : Doc) (now : Int),
        Store.get (update s kind id (some m) now).2.1 kind id
          = some (mapToPlist ""
              (setKey (removeKey (removeKey m createdKey) idKey) updatedKey
                (Value.vint now))))
    ∧ (∀ (s : Store) (kind : String) (id : Int) (m : Doc) (now : Int),
        goodFields m = true →
        get (update s kind id (some m) now).2.1 kind id
          = (some (setKey (removeKey (removeKey m createdKey) idKey) updatedKey
                (Value.vint now) ++ [(idKey, Value.vint id)]), 200)) := by
  have hsg : ∀ (s : Store) (kind : String) (id : Int) (m : Doc) (now : Int),
      Store.get (update s kind id (some m) now).2.1 kind id
        = some (mapToPlist "" (setKey (removeKey (removeKey m createdKey) idKey) updatedKey
            (Value.vint now))) :=
    fun s kind id m now => Store.get_put s kind id _
  refine ⟨hsg, ?_⟩
  intro s kind id m now hg
  have hm2 : goodFields (setKey (removeKey (removeKey m createdKey) idKey) updatedKey
      (Value.vint now)) = true :=
    goodFields_setKey (goodFields_removeKey _ (goodFields_removeKey _ hg)) (by decide)
      (by simp [goodVal])
  have hid2 : lookupD (setKey (removeKey (removeKey m createdKey) idKey) updatedKey
      (Value.vint now)) idKey = none := by
    rw [lookupD_setKey_ne _ _ (by decide)]
    exact lookupD_removeKey_self _ _
  show get (update s kind id (some m) now).2.1 kind id = _
  unfold get
  rw [hsg s kind id m now]
  show (some (setKey (plistToMap (mapToPlist "" (setKey (removeKey (removeKey m createdKey)
      idKey) updatedKey (Value.vint now))) id) idKey (Value.vint id)), 200) = _
  rw [decode_encode id hm2 hid2]
  rw [setKey_self_of_lookup (lookupD_append_self _ hid2)]

/-- C3, witness: the unconditional full-replace half at the lossy payload
`{a: []}` (its empty array emits no property, so the stored set is exactly
`[_updated = 50]`), and the get half at a concrete store whose entity holds
a `tags` field that the lossless payload `{name: "Bob"}` omits; after the
update, get returns only the payload's field plus metadata. -/
theorem C3_full_replace_witness :
    Store.get (update ⟨[(("k", 1), [⟨"old", Value.vint 9, false⟩])], 2⟩ "k" 1
        (some [("a", Value.varr [])]) 50).2.1 "k" 1
      = some (mapToPlist "" (setKey (removeKey (removeKey [("a", Value.varr [])] createdKey)
          idKey) updatedKey (Value.vint 50)))
    ∧ goodFields [("name", Value.vstr "Bob")] = true
    ∧ get (update ⟨[(("k", 1), [⟨"tags", Value.vstr "x", false⟩])], 2⟩ "k" 1
          (some [("name", Value.vstr "Bob")]) 60).2.1 "k" 1
        = (some [("name", Value.vstr "Bob"), (updatedKey, Value.vint 60),
            (idKey, Value.vint 1)], 200) :=
  ⟨C3_full_replace.1 ⟨[(("k", 1), [⟨"old", Value.vint 9, false⟩])], 2⟩ "k" 1
      [("a", Value.varr [])] 50,
   by decide,
   C3_full_replace.2 ⟨[(("k", 1), [⟨"tags", Value.vstr "x", false⟩])], 2⟩
     "k" 1 [("name", Value.vstr "Bob")] 60 (by decide)⟩

/-- C4, counterexample: update applied to an absent id creates the entity:
in the empty store, entity ("k", 5) is absent, yet after `update` on id 5
it is present — so insert is not the only absent→present transition. -/
theorem C4_counterexample :
    present ⟨[], 1⟩ "k" 5 = false
    ∧ present (update ⟨[], 1⟩ "k" 5 (some []) 0).2.1 "k" 5 = true :=
  ⟨rfl, rfl⟩

/-- C4, amended: the reachable entity states are absent and present, but
update writes unconditionally: it leaves the entity present whatever its
prior state (in particular it creates an absent entity, so insert is not
the only absent→present transition); insert creates the entity at a fresh
backend-assigned identifier that was absent before; delete moves a present
entity to absent. -/
theorem C4_state_machine :
    (∀ (s : Store) (kind : String) (id : Int) (m : Doc) (now : Int),
        present (update s kind id (some m) now).2.1 kind id = true)
    ∧ (∀ (s : Store) (kind : String) (m : Doc) (now : Int), StoreWF s = true →
        present s kind s.nextId = false
        ∧ present (insert s kind (some m) now).2.1 kind s.nextId = true)
    ∧ (∀ (s : Store) (kind : String) (id : Int), present s kind id = true →
        present (delete2 s kind id).1 kind id = false) := by
  refine ⟨?_, ?_, ?_⟩
  · intro s kind id m now
    show present (s.put kind id _) kind id = true
    simp [present, Store.get_put]
  · intro s kind m now hwf
    constructor
    · simp [present, Store.get_fresh kind hwf]
    · show present (s.putNew kind _).2 kind s.nextId = true
      simp [present, Store.putNew, Store.get, find?_setEntry_self]
  · intro s kind id hp
    have hdel : s.del kind id
        = some ⟨s.entries.filter (fun e => e.1 ≠ (kind, id)), s.nextId⟩ := by
      unfold Store.del
      simp only [present] at hp
      simp [hp]
    have hget := Store.get_del hdel
    unfold delete2
    rw [hdel]
    show present ⟨s.entries.filter (fun e => e.1 ≠ (kind, id)), s.nextId⟩ kind id = false
    simp only [present]
    rw [hget]
    rfl

/-- C4, witness: the three transitions at concrete stores: update creates
at absent id 5; insert creates at the fresh id 1 of the empty store;
delete removes the present entity 3. -/
theorem C4_state_machine_witness :
    present (update ⟨[], 1⟩ "k" 5 (some []) 0).2.1 "k" 5 = true
    ∧ (StoreWF ⟨[], 1⟩ = true
        ∧ (present ⟨[], 1⟩ "k" 1 = false
            ∧ present (insert ⟨[], 1⟩ "k" (some []) 0).2.1 "k" 1 = true))
    ∧ (present ⟨[(("k", 3), [])], 4⟩ "k" 3 = true
        ∧ present (delete2 ⟨[(("k", 3), [])], 4⟩ "k" 3).1 "k" 3 = false) :=
  ⟨C4_state_machine.1 ⟨[], 1⟩ "k" 5 [] 0,
   ⟨rfl, C4_state_machine.2.1 ⟨[], 1⟩ "k" [] 0 rfl⟩,
   ⟨rfl, C4_state_machine.2.2 ⟨[(("k", 3), [])], 4⟩ "k" 3 rfl⟩⟩

/-- C5: the code loses `_created` on update instead of preserving it.  The
stored entity ("k", 1) carries `_created = 100`; after `update` with
payload `{y: 2}` at time 200, the stored property set is exactly
`[y = 2, _updated = 200]` — no `_created` at all — and get returns a
document without `_created`.  The source marks the intended behaviour as
missing: `// TODO: Get the entity, if it's found, set the _created time
accordingly.` -/
theorem C5_created_lost :
    Store.get (update ⟨[(("k", 1), [⟨createdKey, Value.vint 100, false⟩,
        ⟨"x", Value.vint 1, false⟩])], 2⟩ "k" 1 (some [("y", Value.vint 2)]) 200).2.1 "k" 1
      = some [⟨"y", Value.vint 2, false⟩, ⟨updatedKey, Value.vint 200, false⟩]
    ∧ (get (update ⟨[(("k", 1), [⟨createdKey, Value.vint 100, false⟩,
        ⟨"x", Value.vint 1, false⟩])], 2⟩ "k" 1 (some [("y", Value.vint 2)]) 200).2.1
        "k" 1).1
      = some [("y", Value.vint 2), (updatedKey, Value.vint 200), (idKey, Value.vint 1)] := by
  constructor <;>
    simp [update, get, Store.put, Store.get, setEntry, removeKey, setKey, mapToPlist,
      plistToMap, insertProp, leafIns, splitName, splitChar, lookupD, idKey, createdKey,
      updatedKey, List.find?]

/-- C6, counterexample: insert does not strip a caller-supplied `_id`: the
payload `{_id: "evil"}` is encoded into the stored property set, which
after the insert contains the property `_id = "evil"` alongside the
stamped `_created` — the caller's reserved key influenced the stored
properties. -/
theorem C6_counterexample :
    Store.get (insert ⟨[], 1⟩ "k" (some [(idKey, Value.vstr "evil")]) 10).2.1 "k" 1
      = some [⟨idKey, Value.vstr "evil", false⟩, ⟨createdKey, Value.vint 10, false⟩] := by
  simp [insert, Store.putNew, Store.get, setEntry, setKey, mapToPlist, lookupD,
    idKey, createdKey, List.find?]

/-- C6, amended: on update, caller-supplied `_id` and `_created` are
stripped and never influence the result — updating with the payload equals
updating with the payload minus those keys.  On insert, the returned
document's `_id` is the backend-assigned identifier and its `_created` is
the service clock, whatever the caller supplied under those keys (but a
caller-supplied `_id` does reach insert's stored properties, as the
counterexample shows). -/
theorem C6_reserved_keys :
    (∀ (s : Store) (kind : String) (id : Int) (m : Doc) (now : Int),
        update s kind id (some m) now
          = update s kind id (some (removeKey (removeKey m idKey) createdKey)) now)
    ∧ (∀ (s : Store) (kind : String) (m : Doc) (now : Int),
        ∃ r, (insert s kind (some m) now).1 = some r
          ∧ lookupD r idKey = some (Value.vint s.nextId)
          ∧ lookupD r createdKey = some (Value.vint now)) := by
  constructor
  · intro s kind id m now
    have hbody : removeKey (removeKey m createdKey) idKey
        = removeKey (removeKey (removeKey (removeKey m idKey) createdKey) createdKey)
            idKey := by
      rw [removeKey_idem, removeKey_comm _ idKey createdKey, removeKey_idem,
        removeKey_comm _ createdKey idKey]
    simp only [update]
    rw [hbody]
  · intro s kind m now
    refine ⟨setKey (setKey m createdKey (Value.vint now)) idKey (Value.vint s.nextId),
      rfl, lookupD_setKey_self _ _ _, ?_⟩
    rw [lookupD_setKey_ne _ _ (by decide)]
    exact lookupD_setKey_self _ _ _

/-- C7: for a key holding an array of length N, encode emits exactly N
properties, all named `prefix + key` with `multiple = true`, one per
element in order, followed by the encoding of the remaining fields; an
empty array therefore emits zero properties, and the document `{a: []}`
round-trips to a document in which the field `a` is absent (only `_id`
remains), not to an empty array. -/
theorem C7_array_encoding :
    (∀ (pre k : String) (l : List Value) (rest : Doc),
        mapToPlist pre ((k, Value.varr l) :: rest)
          = l.map (fun mv => (⟨pre ++ k, mv, true⟩ : Property)) ++ mapToPlist pre rest)
    ∧ (∀ id : Int,
        plistToMap (mapToPlist "" [("a", Value.varr [])]) id = [(idKey, Value.vint id)]
          ∧ lookupD (plistToMap (mapToPlist "" [("a", Value.varr [])]) id) "a" = none) := by
  constructor
  · intro pre k l rest
    simp only [mapToPlist]
  · intro id
    constructor <;> simp [plistToMap, mapToPlist, setKey, lookupD, idKey]

/-- C8: a start or end cursor token the backend decoder rejects is treated
exactly as an absent token: provided the empty (omitted) token also fails
to decode, the whole list call — query construction, iteration, items and
status — is identical to the call with the token omitted; in particular it
does not fail. -/
theorem C8_cursor_fallback :
    ∀ (dec : String → Option String) (runQ : Query → List Step) (kind : String)
      (uq : UserQuery), dec "" = none →
      (dec uq.StartCursor = none →
        list dec runQ kind uq = list dec runQ kind { uq with StartCursor := "" })
      ∧ (dec uq.EndCursor = none →
        list dec runQ kind uq = list dec runQ kind { uq with EndCursor := "" }) := by
  intro dec runQ kind uq h0
  constructor
  · intro hs
    unfold list
    have hq : buildQuery dec kind uq = buildQuery dec kind { uq with StartCursor := "" } := by
      simp [buildQuery, hs, h0]
    rw [hq]
  · intro he
    unfold list
    have hq : buildQuery dec kind uq = buildQuery dec kind { uq with EndCursor := "" } := by
      simp [buildQuery, he, h0]
    rw [hq]

/-- C8, witness: the fallback at a concrete undecodable token, with a
decoder rejecting every token and an empty backend. -/
theorem C8_cursor_fallback_witness :
    ((fun (_ : String) => (none : Option String)) "" = none)
    ∧ ((fun (_ : String) => (none : Option String)) "bad" = none)
    ∧ list (fun _ => none) (fun _ => []) "k" ⟨0, "bad", "", "", []⟩
        = list (fun _ => none) (fun _ => []) "k" ⟨0, "", "", "", []⟩ :=
  ⟨rfl, rfl,
    (C8_cursor_fallback (fun _ => none) (fun _ => []) "k" ⟨0, "bad", "", "", []⟩ rfl).1 rfl⟩

/-- C9: a backend error at any point of the iteration — whether from the
iterator's next-row call or from capturing the cursor after a row — makes
the whole list call return status 500 with no result at all: the rows
decoded before the error are discarded, never returned as a partial list. -/
theorem C9_error_aborts :
    (∀ (dec : String → Option String) (runQ : Query → List Step) (kind : String)
        (uq : UserQuery) (pre rest : List Step),
        runQ (buildQuery dec kind uq) = pre ++ .error () :: rest →
        list dec runQ kind uq = (none, 500))
    ∧ (∀ (dec : String → Option String) (runQ : Query → List Step) (kind : String)
        (uq : UserQuery) (pre rest : List Step) (kid : Int) (pl : List Property),
        runQ (buildQuery dec kind uq) = pre ++ .ok ((kid, pl), .error ()) :: rest →
        list dec runQ kind uq = (none, 500)) := by
  constructor
  · intro dec runQ kind uq pre rest hq
    unfold list
    rw [hq]
    exact listRun_next_error pre rest [] ""
  · intro dec runQ kind uq pre rest kid pl hq
    unfold list
    rw [hq]
    exact listRun_cursor_error pre rest kid pl [] ""

/-- C9, witness: a backend whose iterator yields one good row and then an
error; the list call returns (none, 500). -/
theorem C9_error_aborts_witness :
    ((fun (_ : Query) => [(Except.ok ((3, ([] : List Property)), Except.ok "c") : Step),
          Except.error ()])
        (buildQuery (fun _ => none) "k" ⟨0, "", "", "", []⟩)
      = [(Except.ok ((3, ([] : List Property)), Except.ok "c") : Step)]
          ++ Except.error () :: [])
    ∧ list (fun _ => none)
        (fun _ => [(Except.ok ((3, ([] : List Property)), Except.ok "c") : Step),
          Except.error ()])
        "k" ⟨0, "", "", "", []⟩ = (none, 500) :=
  ⟨rfl, C9_error_aborts.1 (fun _ => none)
    (fun _ => [(Except.ok ((3, ([] : List Property)), Except.ok "c") : Step),
      Except.error ()])
    "k" ⟨0, "", "", "", []⟩
    [(Except.ok ((3, ([] : List Property)), Except.ok "c") : Step)] [] rfl⟩

/-- C10: a request path `/{kind}/0` parses to the kind with id 0, and the
handler routes id 0 to the collection operations: GET performs list (not
get), POST performs insert (not update), and DELETE is 405 — so an entity
with numeric id 0 can never be addressed by get, update or delete. -/
theorem C10_id_zero_collection (kind : String) (h : ('/') ∉ kind.data) :
    getKindAndID ("/" ++ kind ++ "/0") = some (kind, 0)
    ∧ dispatch "GET" ("/" ++ kind ++ "/0") = Action.listA
    ∧ dispatch "POST" ("/" ++ kind ++ "/0") = Action.insertA
    ∧ dispatch "DELETE" ("/" ++ kind ++ "/0") = Action.methodNotAllowed := by
  have hdata : ("/" ++ kind ++ "/0").data = '/' :: (kind.data ++ ['/', '0']) := by
    simp [String.data_append]
  have hsplit2 : splitChar '/' (kind.data ++ ['/', '0']) = [kind.data, ['0']] := by
    rw [show kind.data ++ ['/', '0'] = kind.data ++ '/' :: ['0'] from rfl,
      splitChar_append _ h, splitChar_not_mem (by decide)]
  have hparse : getKindAndID ("/" ++ kind ++ "/0") = some (kind, 0) := by
    unfold getKindAndID
    rw [hdata]
    simp only [hsplit2, List.map_cons, List.map_nil, string_mk_data]
    rw [if_neg (by simp)]
    show (parseInt64 (String.mk ['0'])).map (fun id => (kind, id)) = some (kind, 0)
    rw [show parseInt64 (String.mk ['0']) = some 0 from by decide]
    rfl
  refine ⟨hparse, ?_, ?_, ?_⟩ <;> unfold dispatch <;> rw [hparse] <;> rfl

/-- C10, witness: the collection routing at the concrete kind `contact`. -/
theorem C10_id_zero_collection_witness :
    (('/') ∉ "contact".data)
    ∧ getKindAndID ("/" ++ "contact" ++ "/0") = some ("contact", 0)
    ∧ dispatch "GET" ("/" ++ "contact" ++ "/0") = Action.listA
    ∧ dispatch "DELETE" ("/" ++ "contact" ++ "/0") = Action.methodNotAllowed :=
  ⟨by decide, (C10_id_zero_collection "contact" (by decide)).1,
    (C10_id_zero_collection "contact" (by decide)).2.1,
    (C10_id_zero_collection "contact" (by decide)).2.2.2⟩

end SimplyPut
